import Mathlib

/-
Shallow embedding of the SQLite-backed note store in src/note_db.py.

The relational state (tables notes, tags, note_tags) is modelled as lists of
rows; AUTOINCREMENT primary keys are modelled by monotone counters.  Timestamps
are the ISO-8601 strings the code stores and compares (the code never parses
them; SQLite compares TEXT byte-wise, modelled by the lexicographic String
order).  SQL ORDER BY is modelled by a merge sort with the corresponding
comparator (tie order is unspecified in SQL; the model fixes one).  A raised
sqlite3.IntegrityError is modelled as Except.error.

One behaviour that matters below: the Python module never executes
PRAGMA foreign_keys=ON, and SQLite leaves foreign-key enforcement OFF by
default, so the ON DELETE CASCADE clauses declared in _create_tables have no
effect at runtime.  delete_note therefore removes only the notes row and
leaves the note_tags rows in place.  The model reflects the runtime behaviour.
-/

namespace NoteDb

/-- A row of the notes table: id, title, content, created_at, updated_at. -/
structure Note where
  id : Nat
  title : String
  content : String
  createdAt : String
  updatedAt : String
deriving DecidableEq, Repr

/-- A row of the tags table: id, name (UNIQUE). -/
structure Tag where
  id : Nat
  name : String
deriving DecidableEq, Repr

/-- The whole database state: the three tables plus the AUTOINCREMENT
counters for notes.id and tags.id (SQLite assigns 1, 2, 3, ...). -/
structure DB where
  notes : List Note
  tags : List Tag
  noteTags : List (Nat × Nat)
  nextNoteId : Nat
  nextTagId : Nat
deriving DecidableEq, Repr

/-- The freshly created database (RDB after _create_tables). -/
def emptyDB : DB := ⟨[], [], [], 1, 1⟩

/-- Lookup of a tag row by exact name, as in
SELECT id FROM tags WHERE name = ?. -/
def findTag (db : DB) (name : String) : Option Tag :=
  db.tags.find? (fun t => t.name = name)

/-- NoteDB._get_or_create_tag: look the name up; if present return the
existing id (and leave the store untouched), otherwise insert a new tags row
with the next AUTOINCREMENT id.  The name is stored verbatim: the store layer
performs no trimming or other normalisation. -/
def getOrCreateTag (db : DB) (name : String) : Nat × DB :=
  match findTag db name with
  | some t => (t.id, db)
  | none =>
      (db.nextTagId,
        { db with
            tags := db.tags ++ [⟨db.nextTagId, name⟩],
            nextTagId := db.nextTagId + 1 })

/-- INSERT INTO note_tags (note_id, tag_id) VALUES (?, ?).  The table has
PRIMARY KEY (note_id, tag_id); inserting an existing pair raises
sqlite3.IntegrityError, modelled as Except.error. -/
def insertNoteTag (db : DB) (nid tid : Nat) : Except Unit DB :=
  if (nid, tid) ∈ db.noteTags then Except.error ()
  else Except.ok { db with noteTags := db.noteTags ++ [(nid, tid)] }

/-- The tag loop shared by add_note and update_note: for each tag name in
order, resolve-or-create the tag and insert the association row, stopping
with the raised error if the association already exists. -/
def addTags (nid : Nat) : DB → List String → Except Unit DB
  | db, [] => Except.ok db
  | db, name :: rest =>
      let r := getOrCreateTag db name
      match insertNoteTag r.2 nid r.1 with
      | Except.error e => Except.error e
      | Except.ok db2 => addTags nid db2 rest

/-- NoteDB.add_note: insert the notes row with created_at = updated_at = now
(datetime.now().isoformat() is passed in as the explicit argument now), then
run the tag loop.  Returns the new id, or the raised IntegrityError. -/
def addNote (db : DB) (now title content : String) (tags : List String) :
    Except Unit (Nat × DB) :=
  let nid := db.nextNoteId
  let db1 : DB :=
    { db with
        notes := db.notes ++ [⟨nid, title, content, now, now⟩],
        nextNoteId := nid + 1 }
  match addTags nid db1 tags with
  | Except.error e => Except.error e
  | Except.ok db2 => Except.ok (nid, db2)

/-- The tag-name list of a note as produced by the query in get_note:
SELECT t.name FROM tags t JOIN note_tags nt ON t.id = nt.tag_id
WHERE nt.note_id = ?.  Rows are produced in association order; pairs whose
tag_id matches no tags row produce no join row. -/
def tagNamesOf (db : DB) (nid : Nat) : List String :=
  (db.noteTags.filter (fun p => p.1 = nid)).filterMap
    (fun p => (db.tags.find? (fun t => t.id = p.2)).map (fun t => t.name))

/-- The dictionary returned by get_note: the note row plus its tag names. -/
structure NoteView where
  id : Nat
  title : String
  content : String
  createdAt : String
  updatedAt : String
  tags : List String
deriving DecidableEq, Repr

/-- The view built from a notes row. -/
def noteView (db : DB) (n : Note) : NoteView :=
  ⟨n.id, n.title, n.content, n.createdAt, n.updatedAt, tagNamesOf db n.id⟩

/-- NoteDB.get_note: SELECT * FROM notes WHERE id = ?; None when no row
matches, otherwise the row with its tag names attached. -/
def getNote (db : DB) (nid : Nat) : Option NoteView :=
  (db.notes.find? (fun n => n.id = nid)).map (noteView db)

/-- Python truthiness of an optional string argument: a filter is active
exactly when the argument is neither None nor the empty string. -/
def strActive : Option String → Bool
  | none => false
  | some s => s ≠ ""

/-- Python truthiness of an optional list argument: active exactly when the
argument is neither None nor the empty list. -/
def listActive : Option (List String) → Bool
  | none => false
  | some l => l ≠ []

/-- ASCII lowering of a string, as SQLite LIKE folds A-Z by default. -/
def strLower (s : String) : String := String.mk (s.data.map Char.toLower)

/-- Whether the first character list occurs at the head of the second. -/
def listStartsWith : List Char → List Char → Bool
  | [], _ => true
  | _ :: _, [] => false
  | a :: as, b :: bs => a = b && listStartsWith as bs

/-- Whether the first character list occurs contiguously anywhere in the
second. -/
def listContainsSeq (needle : List Char) : List Char → Bool
  | [] => listStartsWith needle []
  | b :: bs => listStartsWith needle (b :: bs) || listContainsSeq needle bs

/-- The pattern column LIKE ? with the parameter wrapped as %needle%:
case-folded (ASCII) substring containment.  LIKE metacharacters inside the
needle itself are not modelled (the claims never use them). -/
def likeContains (needle hay : String) : Bool :=
  listContainsSeq (strLower needle).data (strLower hay).data

/-- The JOIN note_tags JOIN tags ... WHERE t.name IN (names) condition of
search_notes, specialised to one note row: the note carries at least one
association whose tag name is among the requested names. -/
def hasAnyTag (db : DB) (names : List String) (nid : Nat) : Bool :=
  db.noteTags.any (fun p =>
    p.1 = nid && db.tags.any (fun t => t.id = p.2 && names.contains t.name))

/-- The WHERE clause assembled by search_notes, as a predicate on one notes
row: the conjunction of the conditions of the active filters (inactive
filters contribute no condition).  Date bounds compare the created_at TEXT
byte-wise, modelled by the String order. -/
def noteMatches (db : DB) (title : Option String) (tags : Option (List String))
    (startDate endDate keyword : Option String) (n : Note) : Bool :=
  (if listActive tags then hasAnyTag db (tags.getD []) n.id else true) &&
  (if strActive title then likeContains (title.getD "") n.title else true) &&
  (if strActive startDate then decide (startDate.getD "" ≤ n.createdAt) else true) &&
  (if strActive endDate then decide (n.createdAt ≤ endDate.getD "") else true) &&
  (if strActive keyword then
      (likeContains (keyword.getD "") n.title || likeContains (keyword.getD "") n.content)
    else true)

/-- The ORDER BY n.created_at DESC comparator. -/
def createdDesc (a b : Note) : Bool := decide (b.createdAt ≤ a.createdAt)

/-- NoteDB.search_notes: SELECT DISTINCT n.* with the assembled WHERE clause,
ORDER BY n.created_at DESC, then re-fetch every returned row through
get_note.  DISTINCT collapses the duplicate note rows produced by the tag
join, which the filter over the (per-id-unique) notes table reflects; the
per-row get_note never misses because the id comes from the notes table. -/
def searchNotes (db : DB) (title : Option String) (tags : Option (List String))
    (startDate endDate keyword : Option String) : List NoteView :=
  (((db.notes.filter
      (noteMatches db title tags startDate endDate keyword)).mergeSort
        createdDesc).filterMap (fun r => getNote db r.id))

/-- The per-row effect of the UPDATE statement of update_note: the row of the
targeted id receives the provided fields and updated_at = now; every other
row is unchanged. -/
def updateFields (now : String) (nid : Nat) (title content : Option String)
    (n : Note) : Note :=
  if n.id = nid then
    { n with
        title := title.getD n.title,
        content := content.getD n.content,
        updatedAt := now }
  else n

/-- The field phase of update_note: the UPDATE statement is assembled and
executed only when a title or a content argument was provided, and then also
sets updated_at; otherwise the notes table is untouched. -/
def applyUpdate (db : DB) (now : String) (nid : Nat)
    (title content : Option String) : DB :=
  if title.isSome || content.isSome then
    { db with notes := db.notes.map (updateFields now nid title content) }
  else db

/-- NoteDB.update_note.  Checks existence first and returns False without
writing when the id is absent.  Runs the field phase, then, when a tags
argument is present (even an empty list), deletes all existing associations
of the note and re-runs the tag loop, which raises on a duplicated tag name
in the input. -/
def updateNote (db : DB) (now : String) (nid : Nat)
    (title content : Option String) (tags : Option (List String)) :
    Except Unit (Bool × DB) :=
  if (db.notes.find? (fun n => n.id = nid)).isNone then Except.ok (false, db)
  else
    match tags with
    | none => Except.ok (true, applyUpdate db now nid title content)
    | some ts =>
        match addTags nid
          { applyUpdate db now nid title content with
              noteTags := (applyUpdate db now nid title content).noteTags.filter
                (fun p => ¬ p.1 = nid) } ts with
        | Except.error e => Except.error e
        | Except.ok db3 => Except.ok (true, db3)

/-- NoteDB.delete_note: DELETE FROM notes WHERE id = ?, reporting whether a
row matched.  Foreign keys are not enforced (no PRAGMA foreign_keys=ON), so
the declared ON DELETE CASCADE does nothing: note_tags rows are untouched. -/
def deleteNote (db : DB) (nid : Nat) : Bool × DB :=
  (db.notes.any (fun n => n.id = nid),
    { db with notes := db.notes.filter (fun n => ¬ n.id = nid) })

/-- The sort key selected by the validated sort_by field of get_all_notes. -/
def sortKey (sortBy : String) (n : Note) : String :=
  if sortBy = "updated_at" then n.updatedAt
  else if sortBy = "title" then n.title
  else n.createdAt

/-- The ORDER BY comparator of get_all_notes for a validated field/direction. -/
def noteLe (sortBy order : String) (a b : Note) : Bool :=
  if order = "ASC" then decide (sortKey sortBy a ≤ sortKey sortBy b)
  else decide (sortKey sortBy b ≤ sortKey sortBy a)

/-- NoteDB.get_all_notes: silently substitute the defaults for an invalid
sort_by or order, then SELECT * FROM notes ORDER BY field direction and
re-fetch each row through get_note. -/
def getAllNotes (db : DB) (sortBy order : String) : List NoteView :=
  let validSort := if sortBy ∈ (["created_at", "updated_at", "title"] : List String)
    then sortBy else "created_at"
  let validOrder := if order ∈ (["ASC", "DESC"] : List String) then order else "DESC"
  (db.notes.mergeSort (noteLe validSort validOrder)).filterMap
    (fun r => getNote db r.id)

/-- SELECT COUNT(*) FROM notes in get_statistics. -/
def totalNotes (db : DB) : Nat := db.notes.length

/-- SELECT COUNT(*) FROM tags in get_statistics. -/
def totalTags (db : DB) : Nat := db.tags.length

/-- The tag_counts entry of get_statistics for one tag name: tags LEFT JOIN
note_tags GROUP BY t.id with COUNT(nt.note_id) counts the association rows of
the tag, whether or not the referenced note still exists. -/
def tagNoteCount (db : DB) (name : String) : Option Nat :=
  (findTag db name).map (fun t => (db.noteTags.filter (fun p => p.2 = t.id)).length)

/-- The tag-side representation invariants maintained by the store: tag ids
and names are duplicate-free (ids by AUTOINCREMENT, names by the UNIQUE
column), and every stored tag id is below the AUTOINCREMENT counter. -/
def TagInv (db : DB) : Prop :=
  (db.tags.map Tag.id).Nodup ∧ (db.tags.map Tag.name).Nodup ∧
  (∀ t ∈ db.tags, t.id < db.nextTagId) ∧ (∀ p ∈ db.noteTags, p.2 < db.nextTagId)

/-- The full representation invariant of a store state: note ids are
duplicate-free and below the counter, association note-ids are below the
counter (also for orphaned rows), association pairs are duplicate-free (the
PRIMARY KEY), and the tag-side invariants hold. -/
def WF (db : DB) : Prop :=
  (db.notes.map Note.id).Nodup ∧ (∀ n ∈ db.notes, n.id < db.nextNoteId) ∧
  (∀ p ∈ db.noteTags, p.1 < db.nextNoteId) ∧ db.noteTags.Nodup ∧ TagInv db

instance (db : DB) : Decidable (TagInv db) := by unfold TagInv; infer_instance

instance (db : DB) : Decidable (WF db) := by unfold WF; infer_instance

/-- The claim-side search predicate, written from the words of the spec: the
conjunction of all supplied (active) filters, where the tags filter is
satisfied by the note carrying any one of the requested tag names (a tag row
of that name associated to the note). -/
def CarriesTag (db : DB) (nid : Nat) (m : String) : Prop :=
  ∃ t ∈ db.tags, t.name = m ∧ (nid, t.id) ∈ db.noteTags

/-- Spec-side conjunction of the supplied search filters for one note. -/
def MatchesSpec (db : DB) (title : Option String) (tags : Option (List String))
    (startDate endDate keyword : Option String) (n : Note) : Prop :=
  (listActive tags → ∃ m ∈ tags.getD [], CarriesTag db n.id m) ∧
  (strActive title → likeContains (title.getD "") n.title = true) ∧
  (strActive startDate → startDate.getD "" ≤ n.createdAt) ∧
  (strActive endDate → n.createdAt ≤ endDate.getD "") ∧
  (strActive keyword → (likeContains (keyword.getD "") n.title = true ∨
      likeContains (keyword.getD "") n.content = true))

/-- The store state reached by adding, to a fresh store, one note titled n
with tag a (used as a concrete test state below). -/
def exDB1 : DB :=
  { notes := [⟨1, "n", "", "t0", "t0"⟩], tags := [⟨1, "a"⟩],
    noteTags := [(1, 1)], nextNoteId := 2, nextTagId := 2 }

/-- The store state after storing one note tagged with the untrimmed name. -/
def exDB9a : DB :=
  { notes := [⟨1, "n", "", "t0", "t0"⟩], tags := [⟨1, " a "⟩],
    noteTags := [(1, 1)], nextNoteId := 2, nextTagId := 2 }

/-- The store state after then storing a second note tagged with the trimmed
variant of the same name. -/
def exDB9b : DB :=
  { notes := [⟨1, "n", "", "t0", "t0"⟩, ⟨2, "m", "", "t1", "t1"⟩],
    tags := [⟨1, " a "⟩, ⟨2, "a"⟩],
    noteTags := [(1, 1), (2, 2)], nextNoteId := 3, nextTagId := 3 }

/-- A two-note concrete store used by witnesses. -/
def exDB2 : DB :=
  { notes := [⟨1, "alpha", "ca", "t1", "t1"⟩, ⟨2, "beta", "cb", "t2", "t2"⟩],
    tags := [⟨1, "a"⟩, ⟨2, "b"⟩],
    noteTags := [(1, 1), (2, 1), (2, 2)], nextNoteId := 3, nextTagId := 3 }

/-- The conjunction of facts established by one run of the tag loop of
add_note or update_note on a store satisfying the tag invariants: the loop
only appends associations of the given note, stores every requested name,
leaves every other table and every other note untouched, and appends exactly
the requested names to the tag-name list of the note. -/
structure AddTagsOk (nid : Nat) (db : DB) (ts : List String) (db' : DB) : Prop where
  notesEq : db'.notes = db.notes
  nextNoteEq : db'.nextNoteId = db.nextNoteId
  tagInv : TagInv db'
  nextTagLe : db.nextTagId ≤ db'.nextTagId
  tagsGrow : ∀ t ∈ db.tags, t ∈ db'.tags
  nameFrame : ∀ m, m ∉ ts → findTag db' m = findTag db m
  nameStored : ∀ m ∈ ts, ∃ t ∈ db'.tags, t.name = m
  idFrame : ∀ i, i < db.nextTagId →
    db'.tags.find? (fun x => x.id = i) = db.tags.find? (fun x => x.id = i)
  pairsShape : ∃ ps, db'.noteTags = db.noteTags ++ ps ∧ ∀ p ∈ ps, p.1 = nid
  namesOfNid : tagNamesOf db' nid = tagNamesOf db nid ++ ts
  namesOfOther : ∀ m, m ≠ nid → tagNamesOf db' m = tagNamesOf db m
  ntNodup : db.noteTags.Nodup → db'.noteTags.Nodup
  tagsStable : (∀ m ∈ ts, findTag db m ≠ none) → db'.tags = db.tags

/- ------------------------------------------------------------------ -/
/- Theorems.                                                           -/
/- ------------------------------------------------------------------ -/

/-- In a tag table with duplicate-free ids, the lookup by the id of a member
returns that member. -/
theorem find?_by_id_of_mem (l : List Tag) (hnd : (l.map Tag.id).Nodup)
    (t : Tag) (ht : t ∈ l) : l.find? (fun x => x.id = t.id) = some t := by
  induction l with
  | nil => cases ht
  | cons a l ih =>
      rw [List.map_cons, List.nodup_cons] at hnd
      rcases List.mem_cons.mp ht with rfl | hmem
      · exact List.find?_cons_of_pos _ (by simp)
      · have hne : ¬ a.id = t.id := by
          intro he
          exact hnd.1 (he ▸ List.mem_map_of_mem Tag.id hmem)
        rw [List.find?_cons_of_neg _ (by simpa using hne)]
        exact ih hnd.2 hmem

/-- Tag resolution leaves the notes table unchanged. -/
theorem got_notes (db : DB) (name : String) :
    (getOrCreateTag db name).2.notes = db.notes := by
  rcases h : findTag db name with _ | t <;> simp [getOrCreateTag, h]

/-- Tag resolution leaves the association table unchanged. -/
theorem got_noteTags (db : DB) (name : String) :
    (getOrCreateTag db name).2.noteTags = db.noteTags := by
  rcases h : findTag db name with _ | t <;> simp [getOrCreateTag, h]

/-- Tag resolution leaves the note id counter unchanged. -/
theorem got_nextNoteId (db : DB) (name : String) :
    (getOrCreateTag db name).2.nextNoteId = db.nextNoteId := by
  rcases h : findTag db name with _ | t <;> simp [getOrCreateTag, h]

/-- Tag resolution never decreases the tag id counter. -/
theorem got_nextTagLe (db : DB) (name : String) :
    db.nextTagId ≤ (getOrCreateTag db name).2.nextTagId := by
  rcases h : findTag db name with _ | t <;> simp [getOrCreateTag, h, Nat.le_succ]

/-- A name already present is resolved to the existing row with the store
left untouched: no new Tag entity is created. -/
theorem got_reuse (db : DB) (name : String) (t : Tag)
    (h : findTag db name = some t) : getOrCreateTag db name = (t.id, db) := by
  simp [getOrCreateTag, h]

/-- When every behaviour below only needs that the store did not change on an
existing name: the whole-state form of reuse. -/
theorem got_stable (db : DB) (name : String) (h : findTag db name ≠ none) :
    (getOrCreateTag db name).2 = db := by
  rcases hf : findTag db name with _ | t
  · exact absurd hf h
  · rw [got_reuse db name t hf]

/-- The returned id is below the post-state tag id counter. -/
theorem got_tid_lt (db : DB) (name : String) (inv : TagInv db) :
    (getOrCreateTag db name).1 < (getOrCreateTag db name).2.nextTagId := by
  rcases h : findTag db name with _ | t
  · simp [getOrCreateTag, h]
  · have ht : t ∈ db.tags := List.mem_of_find?_eq_some h
    have := inv.2.2.1 t ht
    simp only [getOrCreateTag, h]
    exact this

/-- Tag resolution preserves the tag invariants. -/
theorem got_tagInv (db : DB) (name : String) (inv : TagInv db) :
    TagInv (getOrCreateTag db name).2 := by
  obtain ⟨hids, hnames, hlt, hsnd⟩ := inv
  rcases h : findTag db name with _ | t
  · have hname : ∀ t ∈ db.tags, ¬ t.name = name := by
      simpa [findTag, List.find?_eq_none] using h
    refine ⟨?_, ?_, ?_, ?_⟩ <;> simp only [getOrCreateTag, h]
    · rw [List.map_append, List.nodup_append]
      refine ⟨hids, by simp, ?_⟩
      intro i hi
      simp only [List.map_cons, List.map_nil, List.mem_singleton]
      rcases List.mem_map.mp hi with ⟨u, hu, rfl⟩
      exact fun he => absurd (he ▸ hlt u hu) (Nat.lt_irrefl _)
    · rw [List.map_append, List.nodup_append]
      refine ⟨hnames, by simp, ?_⟩
      intro m hm
      simp only [List.map_cons, List.map_nil, List.mem_singleton]
      rcases List.mem_map.mp hm with ⟨u, hu, rfl⟩
      exact fun he => hname u hu (by simpa using he)
    · intro u hu
      rcases List.mem_append.mp hu with hl | hr
      · exact Nat.lt_succ_of_lt (hlt u hl)
      · simp only [List.mem_singleton] at hr
        subst hr
        exact Nat.lt_succ_self _
    · intro p hp
      exact Nat.lt_succ_of_lt (hsnd p hp)
  · rw [got_reuse db name t h]
    exact ⟨hids, hnames, hlt, hsnd⟩

/-- After resolution the tag table holds a row carrying exactly the supplied
name under the returned id. -/
theorem got_idrow (db : DB) (name : String) (inv : TagInv db) :
    (getOrCreateTag db name).2.tags.find?
      (fun x => x.id = (getOrCreateTag db name).1) =
      some ⟨(getOrCreateTag db name).1, name⟩ := by
  rcases h : findTag db name with _ | t
  · have hlt := inv.2.2.1
    simp only [getOrCreateTag, h, List.find?_append]
    have hl : db.tags.find? (fun x => x.id = db.nextTagId) = none := by
      rw [List.find?_eq_none]
      intro u hu
      simpa using Nat.ne_of_lt (hlt u hu)
    rw [hl]
    simp
  · rw [got_reuse db name t h]
    have ht : t ∈ db.tags := List.mem_of_find?_eq_some h
    have hn : t.name = name := by simpa using List.find?_some h
    have := find?_by_id_of_mem db.tags inv.1 t ht
    rw [this]
    cases t
    simp_all

/-- Lookup of any other name is unchanged by a resolution. -/
theorem got_nameFrame (db : DB) (name m : String) (hm : m ≠ name) :
    findTag (getOrCreateTag db name).2 m = findTag db m := by
  rcases h : findTag db name with _ | t
  · simp only [getOrCreateTag, h]
    unfold findTag
    simp only [List.find?_append]
    have hr : List.find? (fun t : Tag => t.name = m) [⟨db.nextTagId, name⟩] = none := by
      simp [hm.symm]
    rw [hr, Option.or_none]
  · rw [got_stable db name (by simp [h])]

/-- Lookup by any id already allocated before the resolution is unchanged. -/
theorem got_idFrame (db : DB) (name : String) (i : Nat) (hi : i < db.nextTagId) :
    (getOrCreateTag db name).2.tags.find? (fun x => x.id = i) =
      db.tags.find? (fun x => x.id = i) := by
  rcases h : findTag db name with _ | t
  · simp only [getOrCreateTag, h, List.find?_append]
    have hr : List.find? (fun x : Tag => x.id = i) [⟨db.nextTagId, name⟩] = none := by
      simpa using Nat.ne_of_gt hi
    rw [hr, Option.or_none]
  · rw [got_stable db name (by simp [h])]

/-- Every pre-existing tag row survives a resolution. -/
theorem got_grow (db : DB) (name : String) (t : Tag) (ht : t ∈ db.tags) :
    t ∈ (getOrCreateTag db name).2.tags := by
  rcases h : findTag db name with _ | u
  · simp only [getOrCreateTag, h]
    exact List.mem_append_left _ ht
  · rw [got_stable db name (by simp [h])]
    exact ht

/-- The tag-name lists of all notes are unchanged by a resolution (the
association table is untouched and every referenced tag id is stable). -/
theorem got_namesOf (db : DB) (name : String) (inv : TagInv db) (nid : Nat) :
    tagNamesOf (getOrCreateTag db name).2 nid = tagNamesOf db nid := by
  unfold tagNamesOf
  rw [got_noteTags]
  refine List.filterMap_congr ?_
  intro p hp
  have hsnd := inv.2.2.2 p (List.mem_of_mem_filter hp)
  rw [got_idFrame db name p.2 hsnd]

/-- Re-fetching rows of the notes table through get_note drops nothing and
preserves the row ids: the per-row lookup always finds a row of that id. -/
theorem filterMap_getNote_map_id (db : DB) :
    ∀ l : List Note, (∀ r ∈ l, r ∈ db.notes) →
      (l.filterMap (fun r => getNote db r.id)).map NoteView.id = l.map Note.id := by
  intro l
  induction l with
  | nil => intro _; rfl
  | cons a l ih =>
      intro h
      have ha : a ∈ db.notes := h a (by simp)
      have hsome : ∃ n, db.notes.find? (fun n => n.id = a.id) = some n := by
        have hs : (db.notes.find? (fun n => n.id = a.id)).isSome := by
          rw [List.find?_isSome]
          exact ⟨a, ha, by simp⟩
        exact Option.isSome_iff_exists.mp hs
      obtain ⟨n, hn⟩ := hsome
      have hid : n.id = a.id := by simpa using List.find?_some hn
      have hg : getNote db a.id = some (noteView db n) := by rw [getNote, hn]; rfl
      simp only [List.filterMap_cons, hg, List.map_cons]
      rw [ih (fun r hr => h r (by simp [hr]))]
      simp [noteView, hid]

/-- Any row of the post-resolution tag table is either an original row or the
single freshly inserted one. -/
theorem got_tags_sub (db : DB) (name : String) :
    ∀ t ∈ (getOrCreateTag db name).2.tags,
      t ∈ db.tags ∨ t = ⟨db.nextTagId, name⟩ := by
  intro t ht
  rcases h : findTag db name with _ | u
  · simp only [getOrCreateTag, h] at ht
    rcases List.mem_append.mp ht with hl | hr
    · exact Or.inl hl
    · exact Or.inr (by simpa using hr)
  · rw [got_stable db name (by simp [h])] at ht
    exact Or.inl ht

/-- Insertion of an absent association pair succeeds and appends the row. -/
theorem insertNoteTag_of_not_mem (db : DB) (nid tid : Nat)
    (h : (nid, tid) ∉ db.noteTags) :
    insertNoteTag db nid tid =
      Except.ok { db with noteTags := db.noteTags ++ [(nid, tid)] } := by
  unfold insertNoteTag
  rw [if_neg h]

/-- Main specification of the tag loop: on a store satisfying the tag
invariants, with duplicate-free input names none of which is already
associated to the note, the loop succeeds and produces exactly the promised
store (see AddTagsOk).  With a duplicated name the loop instead raises, which
is proved separately on concrete inputs. -/
theorem addTags_spec (nid : Nat) :
    ∀ (ts : List String) (db : DB), TagInv db → ts.Nodup →
      (∀ p ∈ db.noteTags, p.1 = nid → ∀ t ∈ db.tags, t.name ∈ ts → p.2 ≠ t.id) →
      ∃ db', addTags nid db ts = Except.ok db' ∧ AddTagsOk nid db ts db' := by
  intro ts
  induction ts with
  | nil =>
      intro db inv _ _
      refine ⟨db, rfl, ?_⟩
      exact ⟨rfl, rfl, inv, le_refl _, fun t ht => ht, fun m _ => rfl,
        fun m hm => absurd hm (List.not_mem_nil m),
        fun i _ => rfl, ⟨[], by simp, by simp⟩, (List.append_nil _).symm,
        fun _ _ => rfl, fun h => h, fun _ => rfl⟩
  | cons m rest ih =>
      intro db inv hnd hfresh
      rw [List.nodup_cons] at hnd
      obtain ⟨hmrest, hndrest⟩ := hnd
      rcases hg : getOrCreateTag db m with ⟨tid, dbA⟩
      have hAnotes : dbA.notes = db.notes := by
        have := got_notes db m; rwa [hg] at this
      have hAnt : dbA.noteTags = db.noteTags := by
        have := got_noteTags db m; rwa [hg] at this
      have hAnn : dbA.nextNoteId = db.nextNoteId := by
        have := got_nextNoteId db m; rwa [hg] at this
      have hAle : db.nextTagId ≤ dbA.nextTagId := by
        have := got_nextTagLe db m; rwa [hg] at this
      have invA : TagInv dbA := by
        have := got_tagInv db m inv; rwa [hg] at this
      have htidlt : tid < dbA.nextTagId := by
        have := got_tid_lt db m inv; rwa [hg] at this
      have hrow : dbA.tags.find? (fun x => x.id = tid) = some ⟨tid, m⟩ := by
        have := got_idrow db m inv; rwa [hg] at this
      have hrowmem : (⟨tid, m⟩ : Tag) ∈ dbA.tags := List.mem_of_find?_eq_some hrow
      have hsub : ∀ t ∈ dbA.tags, t ∈ db.tags ∨ t = ⟨db.nextTagId, m⟩ := by
        have := got_tags_sub db m; rwa [hg] at this
      have hgrow : ∀ t ∈ db.tags, t ∈ dbA.tags := by
        intro t ht
        have := got_grow db m t ht; rwa [hg] at this
      have hnamesA : ∀ k, tagNamesOf dbA k = tagNamesOf db k := by
        intro k
        have := got_namesOf db m inv k; rwa [hg] at this
      have hnameFrameA : ∀ x, x ≠ m → findTag dbA x = findTag db x := by
        intro x hx
        have := got_nameFrame db m x hx; rwa [hg] at this
      have hidFrameA : ∀ i, i < db.nextTagId →
          dbA.tags.find? (fun x => x.id = i) = db.tags.find? (fun x => x.id = i) := by
        intro i hi
        have := got_idFrame db m i hi; rwa [hg] at this
      -- the freshly resolved pair is not yet associated
      have hnotmem : (nid, tid) ∉ dbA.noteTags := by
        rw [hAnt]
        intro hmem
        rcases hcase : findTag db m with _ | t
        · have htid : tid = db.nextTagId := by
            have h2 : (getOrCreateTag db m).1 = db.nextTagId := by
              simp [getOrCreateTag, hcase]
            rw [hg] at h2
            exact h2
          have hlt := inv.2.2.2 (nid, tid) hmem
          rw [htid] at hlt
          exact Nat.lt_irrefl _ hlt
        · have ht : t ∈ db.tags := List.mem_of_find?_eq_some hcase
          have htn : t.name = m := by simpa using List.find?_some hcase
          have htid : tid = t.id := by
            have h2 := got_reuse db m t hcase
            rw [hg] at h2
            exact congrArg Prod.fst h2
          exact hfresh (nid, tid) hmem rfl t ht
            (by rw [htn]; exact List.mem_cons_self m rest) htid
      have hins : insertNoteTag dbA nid tid =
          Except.ok { dbA with noteTags := dbA.noteTags ++ [(nid, tid)] } :=
        insertNoteTag_of_not_mem dbA nid tid hnotmem
      -- preconditions of the induction hypothesis for the extended store
      have invB : TagInv { dbA with noteTags := dbA.noteTags ++ [(nid, tid)] } := by
        obtain ⟨a1, a2, a3, a4⟩ := invA
        refine ⟨a1, a2, a3, ?_⟩
        intro p hp
        rcases List.mem_append.mp hp with hl | hr
        · exact a4 p hl
        · simp only [List.mem_singleton] at hr
          subst hr
          exact htidlt
      have freshB : ∀ p ∈ dbA.noteTags ++ [(nid, tid)], p.1 = nid →
          ∀ t ∈ dbA.tags, t.name ∈ rest → p.2 ≠ t.id := by
        intro p hp hp1 t ht htr
        rcases List.mem_append.mp hp with hl | hsing
        · rcases hsub t ht with htold | htnew
          · rw [hAnt] at hl
            exact hfresh p hl hp1 t htold (List.mem_cons_of_mem m htr)
          · intro _
            rw [htnew] at htr
            exact hmrest htr
        · simp only [List.mem_singleton] at hsing
          subst hsing
          intro he
          have h2 : dbA.tags.find? (fun x => x.id = t.id) = some t :=
            find?_by_id_of_mem dbA.tags invA.1 t ht
          rw [← he] at h2
          rw [hrow] at h2
          have : t = ⟨tid, m⟩ := by injection h2 with h3; exact h3.symm
          rw [this] at htr
          exact hmrest htr
      obtain ⟨db', hrun, ok⟩ :=
        ih { dbA with noteTags := dbA.noteTags ++ [(nid, tid)] } invB hndrest freshB
      refine ⟨db', ?_, ?_⟩
      · show addTags nid db (m :: rest) = Except.ok db'
        simp only [addTags, hg, hins]
        exact hrun
      · -- assemble the step facts with the induction facts
        obtain ⟨okNotes, okNext, okInv, okLe, okGrow, okNameF, okStored, okIdF,
          okPairs, okNames, okOther, okNodup, okStable⟩ := ok
        refine ⟨?_, ?_, okInv, ?_, ?_, ?_, ?_, ?_, ?_, ?_, ?_, ?_, ?_⟩
        · rw [okNotes]; exact hAnotes
        · rw [okNext]; exact hAnn
        · exact le_trans hAle okLe
        · intro t ht
          exact okGrow t (hgrow t ht)
        · intro x hx
          rw [List.mem_cons, not_or] at hx
          rw [okNameF x hx.2]
          exact hnameFrameA x hx.1
        · intro x hx
          rcases List.mem_cons.mp hx with rfl | hxr
          · exact ⟨⟨tid, x⟩, okGrow _ hrowmem, rfl⟩
          · exact okStored x hxr
        · intro i hi
          rw [okIdF i (lt_of_lt_of_le hi hAle)]
          exact hidFrameA i hi
        · obtain ⟨ps, hps, hpsall⟩ := okPairs
          refine ⟨(nid, tid) :: ps, ?_, ?_⟩
          · rw [hps]
            simp only [List.append_assoc, List.singleton_append, hAnt]
          · intro p hp
            rcases List.mem_cons.mp hp with rfl | hpr
            · rfl
            · exact hpsall p hpr
        · rw [okNames]
          have hB : tagNamesOf { dbA with noteTags := dbA.noteTags ++ [(nid, tid)] } nid =
              tagNamesOf dbA nid ++ [m] := by
            unfold tagNamesOf
            rw [List.filter_append, List.filterMap_append]
            congr 1
            simp [hrow]
          rw [hB, hnamesA nid, List.append_assoc]
          rfl
        · intro x hx
          rw [okOther x hx]
          have hB : tagNamesOf { dbA with noteTags := dbA.noteTags ++ [(nid, tid)] } x =
              tagNamesOf dbA x := by
            unfold tagNamesOf
            rw [List.filter_append]
            have : List.filter (fun p => p.1 = x) [(nid, tid)] = [] := by
              simp [Ne.symm hx]
            rw [this, List.append_nil]
          rw [hB]
          exact hnamesA x
        · intro hdb
          apply okNodup
          rw [List.nodup_append]
          refine ⟨by rwa [hAnt], List.nodup_singleton _, ?_⟩
          intro p hp
          simp only [List.mem_singleton]
          intro he
          subst he
          exact hnotmem hp
        · intro hall
          have hm0 : findTag db m ≠ none := hall m (List.mem_cons_self m rest)
          have hdbA : dbA = db := by
            have := got_stable db m hm0; rwa [hg] at this
          have h2 := okStable (by
            intro x hxr
            show findTag { dbA with noteTags := dbA.noteTags ++ [(nid, tid)] } x ≠ none
            have : findTag { dbA with noteTags := dbA.noteTags ++ [(nid, tid)] } x =
                findTag dbA x := rfl
            rw [this, hdbA]
            exact hall x (List.mem_cons_of_mem m hxr))
          rw [h2, hdbA]

/-- Specification of add_note on a well-formed store with duplicate-free
input tags: the call returns the next AUTOINCREMENT id, well-formedness is
preserved, the stored note reads back with exactly the given fields and tag
list, every other note reads back unchanged, and the tag table grows only by
the missing names. -/
theorem addNote_spec (db : DB) (now title content : String) (ts : List String)
    (hwf : WF db) (hnd : ts.Nodup) :
    ∃ db', addNote db now title content ts = Except.ok (db.nextNoteId, db') ∧
      WF db' ∧
      getNote db' db.nextNoteId =
        some ⟨db.nextNoteId, title, content, now, now, ts⟩ ∧
      (∀ k, k ≠ db.nextNoteId → getNote db' k = getNote db k) ∧
      db'.notes = db.notes ++ [⟨db.nextNoteId, title, content, now, now⟩] ∧
      db'.nextNoteId = db.nextNoteId + 1 ∧
      (∀ t ∈ db.tags, t ∈ db'.tags) ∧
      (∀ x ∈ ts, ∃ t ∈ db'.tags, t.name = x) ∧
      (∀ x, x ∉ ts → findTag db' x = findTag db x) ∧
      ((∀ x ∈ ts, findTag db x ≠ none) → db'.tags = db.tags) := by
  obtain ⟨hidnd, hidlt, hfstlt, hntnd, hti⟩ := hwf
  -- the store right after the notes-row insert
  have hinv1 : TagInv { db with
      notes := db.notes ++ [⟨db.nextNoteId, title, content, now, now⟩],
      nextNoteId := db.nextNoteId + 1 } := hti
  have hfresh1 : ∀ p ∈ db.noteTags, p.1 = db.nextNoteId →
      ∀ t ∈ db.tags, t.name ∈ ts → p.2 ≠ t.id := by
    intro p hp hp1
    exact absurd hp1 (Nat.ne_of_lt (hfstlt p hp))
  obtain ⟨db', hrun, ok⟩ := addTags_spec db.nextNoteId ts
    { db with
        notes := db.notes ++ [⟨db.nextNoteId, title, content, now, now⟩],
        nextNoteId := db.nextNoteId + 1 } hinv1 hnd hfresh1
  obtain ⟨okNotes, okNext, okInv, okLe, okGrow, okNameF, okStored, okIdF,
    okPairs, okNames, okOther, okNodup, okStable⟩ := ok
  obtain ⟨ps, hps, hpsall⟩ := okPairs
  have hnotes' : db'.notes = db.notes ++ [⟨db.nextNoteId, title, content, now, now⟩] :=
    okNotes
  have hnn' : db'.nextNoteId = db.nextNoteId + 1 := okNext
  have holdnone : db.notes.find? (fun x => x.id = db.nextNoteId) = none := by
    rw [List.find?_eq_none]
    intro x hx
    simpa using Nat.ne_of_lt (hidlt x hx)
  have hnames1 : tagNamesOf { db with
      notes := db.notes ++ [⟨db.nextNoteId, title, content, now, now⟩],
      nextNoteId := db.nextNoteId + 1 } db.nextNoteId = [] := by
    unfold tagNamesOf
    have hnil : db.noteTags.filter (fun p => p.1 = db.nextNoteId) = [] := by
      rw [List.filter_eq_nil_iff]
      intro p hp
      simpa using Nat.ne_of_lt (hfstlt p hp)
    rw [show ({ db with
      notes := db.notes ++ [⟨db.nextNoteId, title, content, now, now⟩],
      nextNoteId := db.nextNoteId + 1 } : DB).noteTags = db.noteTags from rfl, hnil]
    rfl
  refine ⟨db', ?_, ?_, ?_, ?_, hnotes', hnn', ?_, okStored, okNameF, okStable⟩
  · show addNote db now title content ts = Except.ok (db.nextNoteId, db')
    simp only [addNote, hrun]
  · -- well-formedness of the result
    refine ⟨?_, ?_, ?_, ?_, okInv⟩
    · rw [hnotes', List.map_append, List.nodup_append]
      refine ⟨hidnd, by simp, ?_⟩
      intro i hi
      simp only [List.map_cons, List.map_nil, List.mem_singleton]
      rcases List.mem_map.mp hi with ⟨u, hu, rfl⟩
      exact fun he => absurd (he ▸ hidlt u hu) (Nat.lt_irrefl _)
    · intro x hx
      rw [hnotes'] at hx
      rw [hnn']
      rcases List.mem_append.mp hx with hl | hr
      · exact Nat.lt_succ_of_lt (hidlt x hl)
      · simp only [List.mem_singleton] at hr
        subst hr
        exact Nat.lt_succ_self _
    · intro p hp
      rw [hps] at hp
      rw [hnn']
      rcases List.mem_append.mp hp with hl | hr
      · exact Nat.lt_succ_of_lt (hfstlt p hl)
      · rw [hpsall p hr]
        exact Nat.lt_succ_self _
    · exact okNodup hntnd
  · -- the new note reads back with the given fields and tag list
    unfold getNote
    have hfind : db'.notes.find? (fun x => x.id = db.nextNoteId) =
        some ⟨db.nextNoteId, title, content, now, now⟩ := by
      rw [hnotes', List.find?_append, holdnone]
      simp
    rw [hfind]
    have htags : tagNamesOf db' db.nextNoteId = ts := by
      rw [okNames, hnames1]
      rfl
    simp [noteView, htags]
  · -- every other note reads back unchanged
    intro k hk
    unfold getNote
    have hfnew : List.find? (fun x : Note => x.id = k)
        [⟨db.nextNoteId, title, content, now, now⟩] = none := by
      simp [Ne.symm hk]
    have hfind : db'.notes.find? (fun x => x.id = k) =
        db.notes.find? (fun x => x.id = k) := by
      rw [hnotes', List.find?_append, hfnew, Option.or_none]
    rw [hfind]
    rcases hf : db.notes.find? (fun x => x.id = k) with _ | x
    · rw [hf]
      rfl
    · rw [hf]
      have hxid : x.id = k := by simpa using List.find?_some hf
      have hnview : noteView db' x = noteView db x := by
        unfold noteView
        rw [hxid, okOther k hk]
        rw [show tagNamesOf { db with
          notes := db.notes ++ [⟨db.nextNoteId, title, content, now, now⟩],
          nextNoteId := db.nextNoteId + 1 } k = tagNamesOf db k from rfl]
      simp [hnview]
  · intro t ht
    exact okGrow t ht

/-- In a tag table whose names are duplicate-free, a name carried by some row
is carried by exactly one row. -/
theorem filter_name_length_one (x : String) :
    ∀ l : List Tag, (l.map Tag.name).Nodup →
      (∃ t ∈ l, t.name = x) →
      (l.filter (fun u => u.name = x)).length = 1 := by
  intro l
  induction l with
  | nil => intro _ h; rcases h with ⟨t, ht, _⟩; cases ht
  | cons a l ih =>
      intro hnd hex
      rw [List.map_cons, List.nodup_cons] at hnd
      by_cases ha : a.name = x
      · have hnil : l.filter (fun u => u.name = x) = [] := by
          rw [List.filter_eq_nil_iff]
          intro u hu he
          apply hnd.1
          have hux : u.name = x := by simpa using he
          rw [ha, ← hux]
          exact List.mem_map_of_mem Tag.name hu
        rw [List.filter_cons_of_pos (by simpa using ha), hnil]
        rfl
      · rcases hex with ⟨t, ht, htx⟩
        rcases List.mem_cons.mp ht with rfl | htl
        · exact absurd htx ha
        · rw [List.filter_cons_of_neg (by simpa using ha)]
          exact ih hnd.2 ⟨t, htl, htx⟩

/-- An existing row of a given name makes the name lookup succeed. -/
theorem findTag_ne_none_of_mem (db : DB) (x : String) (t : Tag)
    (ht : t ∈ db.tags) (hn : t.name = x) : findTag db x ≠ none := by
  unfold findTag
  rw [Ne, List.find?_eq_none]
  intro hall
  exact hall t ht (by simpa using hn)

/-- C2 amended: for a duplicate-free tag list, getById of the id returned by
create yields a note whose title and content equal the inputs and whose tag
list is exactly the input list (hence, for any two orderings of the same
duplicate-free names, the same tag set).  The counterexample shows the
original quantification over inputs with repeats fails: create raises. -/
theorem claim_C2_amended (db : DB) (now title content : String) (ts : List String)
    (hwf : WF db) (hnd : ts.Nodup) :
    ∃ id db', addNote db now title content ts = Except.ok (id, db') ∧
      getNote db' id = some ⟨id, title, content, now, now, ts⟩ := by
  obtain ⟨db', hrun, _, hget, _⟩ := addNote_spec db now title content ts hwf hnd
  exact ⟨db.nextNoteId, db', hrun, hget⟩

/-- Witness for the amended C2 on a fresh store and two tags given out of
alphabetical order. -/
theorem claim_C2_amended_witness :
    ∃ id db', addNote emptyDB "t0" "T" "C" ["b", "a"] = Except.ok (id, db') ∧
      getNote db' id = some ⟨id, "T", "C", "t0", "t0", ["b", "a"]⟩ :=
  claim_C2_amended emptyDB "t0" "T" "C" ["b", "a"] (by decide) (by decide)

/-- C3 amended: create returns the newly assigned id without raising whenever
the input tag list carries no repeated name (duplicates collapse is what the
spec expected; in fact a repeated name raises, see the counterexample). -/
theorem claim_C3_amended (db : DB) (now title content : String) (ts : List String)
    (hwf : WF db) (hnd : ts.Nodup) :
    ∃ db', addNote db now title content ts = Except.ok (db.nextNoteId, db') := by
  obtain ⟨db', hrun, _⟩ := addNote_spec db now title content ts hwf hnd
  exact ⟨db', hrun⟩

/-- Witness for the amended C3 on a concrete store with two fresh tags. -/
theorem claim_C3_amended_witness :
    ∃ db', addNote exDB2 "t3" "N" "" ["a", "c"] = Except.ok (exDB2.nextNoteId, db') :=
  claim_C3_amended exDB2 "t3" "N" "" ["a", "c"] (by decide) (by decide)

/-- C7: creating two notes that share a tag name reuses the existing Tag
entity: after the second create the tag table is unchanged, exactly one row
carries the shared name, and the statistics total counts each stored name
once (the name multiset of the tag table is duplicate-free). -/
theorem claim_C7 (db : DB) (now1 t1 c1 now2 t2 c2 tg : String) (hwf : WF db) :
    ∃ id1 db1 id2 db2,
      addNote db now1 t1 c1 [tg] = Except.ok (id1, db1) ∧
      addNote db1 now2 t2 c2 [tg] = Except.ok (id2, db2) ∧
      db2.tags = db1.tags ∧
      (db2.tags.filter (fun u => u.name = tg)).length = 1 ∧
      totalTags db2 = (db2.tags.map Tag.name).length ∧
      (db2.tags.map Tag.name).Nodup := by
  obtain ⟨db1, hrun1, hwf1, _, _, _, _, _, hstored1, _, _⟩ :=
    addNote_spec db now1 t1 c1 [tg] hwf (by simp)
  obtain ⟨t, htmem, htname⟩ := hstored1 tg (by simp)
  obtain ⟨db2, hrun2, hwf2, _, _, _, _, _, _, _, hstable2⟩ :=
    addNote_spec db1 now2 t2 c2 [tg] hwf1 (by simp)
  have heq : db2.tags = db1.tags := hstable2 (by
    intro x hx
    simp only [List.mem_singleton] at hx
    subst hx
    exact findTag_ne_none_of_mem db1 x t htmem htname)
  have hnames2 : (db2.tags.map Tag.name).Nodup := hwf2.2.2.2.2.2.1
  refine ⟨db.nextNoteId, db1, db1.nextNoteId, db2, hrun1, hrun2, heq, ?_, ?_, hnames2⟩
  · exact filter_name_length_one tg db2.tags hnames2 ⟨t, heq ▸ htmem, htname⟩
  · simp [totalTags]

/-- Witness for C7 on a fresh store and the shared tag name. -/
theorem claim_C7_witness :
    ∃ id1 db1 id2 db2,
      addNote emptyDB "t1" "n1" "c1" ["shared"] = Except.ok (id1, db1) ∧
      addNote db1 "t2" "n2" "c2" ["shared"] = Except.ok (id2, db2) ∧
      db2.tags = db1.tags ∧
      (db2.tags.filter (fun u => u.name = "shared")).length = 1 ∧
      totalTags db2 = (db2.tags.map Tag.name).length ∧
      (db2.tags.map Tag.name).Nodup :=
  claim_C7 emptyDB "t1" "n1" "c1" "t2" "n2" "c2" "shared" (by decide)

/-- The field updater preserves row ids. -/
theorem updateFields_id (now : String) (nid : Nat) (title content : Option String)
    (x : Note) : (updateFields now nid title content x).id = x.id := by
  unfold updateFields
  by_cases h : x.id = nid <;> simp [h]

/-- The field updater leaves rows of other ids unchanged. -/
theorem updateFields_of_ne (now : String) (nid : Nat)
    (title content : Option String) (x : Note) (h : ¬ x.id = nid) :
    updateFields now nid title content x = x := by
  unfold updateFields
  rw [if_neg h]

/-- Lookup by id through an id-preserving row map. -/
theorem find?_map_update (l : List Note) (k : Nat) (u : Note → Note)
    (hu : ∀ x, (u x).id = x.id) :
    (l.map u).find? (fun x => x.id = k) = (l.find? (fun x => x.id = k)).map u := by
  induction l with
  | nil => rfl
  | cons a l ih =>
      by_cases h : a.id = k
      · rw [List.map_cons, List.find?_cons_of_pos _ (by simp [hu, h]),
            List.find?_cons_of_pos _ (by simp [h])]
        rfl
      · rw [List.map_cons, List.find?_cons_of_neg _ (by simp [hu, h]),
            List.find?_cons_of_neg _ (by simp [h])]
        exact ih

/-- After deleting all associations of a note, its tag-name list is empty. -/
theorem tagNamesOf_filter_self (db : DB) (nid : Nat) :
    tagNamesOf { db with noteTags := db.noteTags.filter (fun p => ¬ p.1 = nid) }
      nid = [] := by
  unfold tagNamesOf
  have hnil : (db.noteTags.filter (fun p => ¬ p.1 = nid)).filter
      (fun p => p.1 = nid) = [] := by
    rw [List.filter_eq_nil_iff]
    intro p hp
    simpa using List.of_mem_filter hp
  rw [show ({ db with noteTags := db.noteTags.filter (fun p => ¬ p.1 = nid) } :
    DB).noteTags = db.noteTags.filter (fun p => ¬ p.1 = nid) from rfl, hnil]
  rfl

/-- Deleting the associations of one note leaves the tag-name lists of every
other note unchanged. -/
theorem tagNamesOf_filter_other (db : DB) (nid k : Nat) (hk : k ≠ nid) :
    tagNamesOf { db with noteTags := db.noteTags.filter (fun p => ¬ p.1 = nid) }
      k = tagNamesOf db k := by
  unfold tagNamesOf
  congr 1
  rw [show ({ db with noteTags := db.noteTags.filter (fun p => ¬ p.1 = nid) } :
    DB).noteTags = db.noteTags.filter (fun p => ¬ p.1 = nid) from rfl]
  rw [List.filter_filter]
  refine List.filter_congr ?_
  intro p hp
  by_cases h : p.1 = k
  · simp [h, hk]
  · simp [h]

/-- The field phase does not touch the tag or association tables, the
counters, or the tag-name lists. -/
theorem applyUpdate_frame (db : DB) (now : String) (nid : Nat)
    (title content : Option String) :
    (applyUpdate db now nid title content).tags = db.tags ∧
    (applyUpdate db now nid title content).noteTags = db.noteTags ∧
    (applyUpdate db now nid title content).nextTagId = db.nextTagId ∧
    (applyUpdate db now nid title content).nextNoteId = db.nextNoteId ∧
    (∀ k, tagNamesOf (applyUpdate db now nid title content) k = tagNamesOf db k) := by
  unfold applyUpdate
  by_cases h : (title.isSome || content.isSome) = true
  · rw [if_pos h]
    exact ⟨rfl, rfl, rfl, rfl, fun k => rfl⟩
  · rw [if_neg h]
    exact ⟨rfl, rfl, rfl, rfl, fun k => rfl⟩

/-- The field phase preserves the tag invariants. -/
theorem applyUpdate_tagInv (db : DB) (now : String) (nid : Nat)
    (title content : Option String) (inv : TagInv db) :
    TagInv (applyUpdate db now nid title content) := by
  obtain ⟨hf1, hf2, hf3, hf4, hf5⟩ := applyUpdate_frame db now nid title content
  obtain ⟨i1, i2, i3, i4⟩ := inv
  refine ⟨?_, ?_, ?_, ?_⟩
  · rw [hf1]; exact i1
  · rw [hf1]; exact i2
  · intro t ht
    rw [hf1] at ht
    rw [hf3]
    exact i3 t ht
  · intro p hp
    rw [hf2] at hp
    rw [hf3]
    exact i4 p hp

/-- Specification of update_note on a well-formed store at an existing id
with duplicate-free replacement tags (when given): the call succeeds, the
updated note reads back with the provided fields, updated_at set to now
exactly when title or content was provided, created_at untouched, the tag
list replaced exactly when a tags argument was given, and every other note
reads back unchanged. -/
theorem updateNote_spec (db : DB) (now : String) (nid : Nat)
    (title content : Option String) (ts : Option (List String))
    (hwf : WF db) (n : Note) (hn : db.notes.find? (fun x => x.id = nid) = some n)
    (hts : ∀ l, ts = some l → l.Nodup) :
    ∃ db' v, updateNote db now nid title content ts = Except.ok (true, db') ∧
      getNote db' nid = some v ∧
      v.createdAt = n.createdAt ∧
      v.updatedAt = (if title.isSome || content.isSome then now else n.updatedAt) ∧
      v.title = title.getD n.title ∧
      v.content = content.getD n.content ∧
      v.tags = (match ts with | none => tagNamesOf db nid | some l => l) ∧
      (∀ k, k ≠ nid → getNote db' k = getNote db k) := by
  have hnid : n.id = nid := by simpa using List.find?_some hn
  obtain ⟨hA1, hA2, hA3, hA4, hA5⟩ := applyUpdate_frame db now nid title content
  have hAinv : TagInv (applyUpdate db now nid title content) :=
    applyUpdate_tagInv db now nid title content hwf.2.2.2.2
  -- the note row produced by the field phase
  obtain ⟨n1, hAfind, hr1, hr2, hr3, hr4, hr5⟩ :
      ∃ n1, (applyUpdate db now nid title content).notes.find?
          (fun x => x.id = nid) = some n1 ∧
        n1.createdAt = n.createdAt ∧
        n1.updatedAt = (if title.isSome || content.isSome then now else n.updatedAt) ∧
        n1.title = title.getD n.title ∧
        n1.content = content.getD n.content ∧
        n1.id = nid := by
    by_cases h : (title.isSome || content.isSome) = true
    · refine ⟨updateFields now nid title content n, ?_, ?_, ?_, ?_, ?_, ?_⟩
      · unfold applyUpdate
        rw [if_pos h]
        rw [show ({ db with notes := db.notes.map (updateFields now nid title content) } :
          DB).notes = db.notes.map (updateFields now nid title content) from rfl]
        rw [find?_map_update db.notes nid _ (updateFields_id now nid title content), hn]
        rfl
      · unfold updateFields
        rw [if_pos hnid]
      · unfold updateFields
        rw [if_pos hnid, if_pos h]
      · unfold updateFields
        rw [if_pos hnid]
      · unfold updateFields
        rw [if_pos hnid]
      · rw [updateFields_id]
        exact hnid
    · have hno : ¬ title.isSome = true ∧ ¬ content.isSome = true := by
        rw [Bool.or_eq_true, not_or] at h
        exact h
      have h1 : title = none := Option.not_isSome_iff_eq_none.mp hno.1
      have h2 : content = none := Option.not_isSome_iff_eq_none.mp hno.2
      subst h1
      subst h2
      refine ⟨n, ?_, rfl, ?_, rfl, rfl, hnid⟩
      · unfold applyUpdate
        rw [if_neg h]
        exact hn
      · rw [if_neg h]
  -- lookups of other ids are untouched by the field phase
  have hAfindk : ∀ k, k ≠ nid → (applyUpdate db now nid title content).notes.find?
      (fun x => x.id = k) = db.notes.find? (fun x => x.id = k) := by
    intro k hk
    unfold applyUpdate
    by_cases h : (title.isSome || content.isSome) = true
    · rw [if_pos h]
      rw [show ({ db with notes := db.notes.map (updateFields now nid title content) } :
        DB).notes = db.notes.map (updateFields now nid title content) from rfl]
      rw [find?_map_update db.notes k _ (updateFields_id now nid title content)]
      rcases hf : db.notes.find? (fun x => x.id = k) with _ | x
      · rw [hf]
        rfl
      · have hxid : x.id = k := by simpa using List.find?_some hf
        rw [hf, Option.map_some']
        rw [updateFields_of_ne now nid title content x (by rw [hxid]; exact hk)]
    · rw [if_neg h]
  have hcheck : (db.notes.find? (fun x => x.id = nid)).isNone = false := by
    rw [hn]; rfl
  rcases ts with _ | l
  · -- no tags argument: the store after the field phase is the result
    refine ⟨applyUpdate db now nid title content,
      noteView (applyUpdate db now nid title content) n1,
      ?_, ?_, hr1, hr2, hr3, hr4, ?_, ?_⟩
    · unfold updateNote
      rw [hcheck]
      rfl
    · unfold getNote
      rw [hAfind, Option.map_some']
    · show tagNamesOf (applyUpdate db now nid title content) n1.id = tagNamesOf db nid
      rw [hr5, hA5 nid]
    · intro k hk
      unfold getNote
      rw [hAfindk k hk]
      rcases hf : db.notes.find? (fun x => x.id = k) with _ | x
      · rw [hf]
        rfl
      · rw [hf]
        have hview : noteView (applyUpdate db now nid title content) x =
            noteView db x := by
          unfold noteView
          rw [hA5 x.id]
        rw [Option.map_some', Option.map_some', hview]
  · -- tags argument present: associations are replaced
    have hinv2 : TagInv { applyUpdate db now nid title content with
        noteTags := (applyUpdate db now nid title content).noteTags.filter
          (fun p => ¬ p.1 = nid) } := by
      obtain ⟨i1, i2, i3, i4⟩ := hAinv
      exact ⟨i1, i2, i3, fun p hp => i4 p (List.mem_of_mem_filter hp)⟩
    have hfresh2 : ∀ p ∈ ({ applyUpdate db now nid title content with
        noteTags := (applyUpdate db now nid title content).noteTags.filter
          (fun p => ¬ p.1 = nid) } : DB).noteTags,
        p.1 = nid → ∀ t ∈ ({ applyUpdate db now nid title content with
          noteTags := (applyUpdate db now nid title content).noteTags.filter
            (fun p => ¬ p.1 = nid) } : DB).tags, t.name ∈ l → p.2 ≠ t.id := by
      intro p hp hp1
      have hne := List.of_mem_filter hp
      simp only [decide_not, Bool.not_eq_eq_eq_not, Bool.not_true,
        decide_eq_false_iff_not] at hne
      exact absurd hp1 hne
    obtain ⟨db3, hrun, ok⟩ := addTags_spec nid l _ hinv2 (hts l rfl) hfresh2
    refine ⟨db3, noteView db3 n1, ?_, ?_, hr1, hr2, hr3, hr4, ?_, ?_⟩
    · unfold updateNote
      rw [hcheck]
      show (match addTags nid _ l with
        | Except.error e => Except.error e
        | Except.ok db3 => Except.ok (true, db3)) = Except.ok (true, db3)
      rw [hrun]
    · unfold getNote
      rw [ok.notesEq]
      rw [show ({ applyUpdate db now nid title content with
        noteTags := (applyUpdate db now nid title content).noteTags.filter
          (fun p => ¬ p.1 = nid) } : DB).notes =
        (applyUpdate db now nid title content).notes from rfl]
      rw [hAfind, Option.map_some']
    · show tagNamesOf db3 n1.id = l
      rw [hr5, ok.namesOfNid, tagNamesOf_filter_self]
      rfl
    · intro k hk
      unfold getNote
      rw [ok.notesEq]
      rw [show ({ applyUpdate db now nid title content with
        noteTags := (applyUpdate db now nid title content).noteTags.filter
          (fun p => ¬ p.1 = nid) } : DB).notes =
        (applyUpdate db now nid title content).notes from rfl]
      rw [hAfindk k hk]
      rcases hf : db.notes.find? (fun x => x.id = k) with _ | x
      · rw [hf]
        rfl
      · rw [hf]
        have hxid : x.id = k := by simpa using List.find?_some hf
        have hview : noteView db3 x = noteView db x := by
          unfold noteView
          rw [ok.namesOfOther x.id (by rw [hxid]; exact hk)]
          rw [tagNamesOf_filter_other _ nid x.id (by rw [hxid]; exact hk)]
          rw [hA5 x.id]
        rw [Option.map_some', Option.map_some', hview]

/-- C5: for an existing note, update never changes created_at, and changes
updated_at exactly when a title or content argument is provided (setting it
to the current time); a tag-only update replaces the tag list but leaves
updated_at, title and content untouched. -/
theorem claim_C5 (db : DB) (now : String) (nid : Nat)
    (title content : Option String) (ts : Option (List String))
    (hwf : WF db) (n : Note) (hn : db.notes.find? (fun x => x.id = nid) = some n)
    (hts : ∀ l, ts = some l → l.Nodup) :
    ∃ db' v, updateNote db now nid title content ts = Except.ok (true, db') ∧
      getNote db' nid = some v ∧
      v.createdAt = n.createdAt ∧
      v.updatedAt = (if title.isSome || content.isSome then now else n.updatedAt) ∧
      (title = none → content = none →
        v.title = n.title ∧ v.content = n.content ∧ v.updatedAt = n.updatedAt) ∧
      (∀ l, ts = some l → v.tags = l) := by
  obtain ⟨db', v, hrun, hget, h1, h2, h3, h4, h5, _⟩ :=
    updateNote_spec db now nid title content ts hwf n hn hts
  refine ⟨db', v, hrun, hget, h1, h2, ?_, ?_⟩
  · intro ht hc
    subst ht
    subst hc
    refine ⟨by simpa using h3, by simpa using h4, ?_⟩
    rw [h2]
    rfl
  · intro l hl
    subst hl
    simpa using h5

/-- Witness for C5: a tag-only update on a concrete store keeps updated_at
(and title, content, created_at) while replacing the tag list. -/
theorem claim_C5_witness :
    ∃ db' v, updateNote exDB1 "t9" 1 none none (some ["x", "y"]) =
        Except.ok (true, db') ∧
      getNote db' 1 = some v ∧
      v.createdAt = "t0" ∧
      v.updatedAt = (if (none : Option String).isSome || (none : Option String).isSome
        then "t9" else "t0") ∧
      ((none : Option String) = none → (none : Option String) = none →
        v.title = "n" ∧ v.content = "" ∧ v.updatedAt = "t0") ∧
      (∀ l, (some ["x", "y"] : Option (List String)) = some l → v.tags = l) :=
  claim_C5 exDB1 "t9" 1 none none (some ["x", "y"]) (by decide)
    ⟨1, "n", "", "t0", "t0"⟩ rfl
    (by intro l hl; cases hl; decide)

/-- C4: update on an id that no note has returns a not-found signal with the
store untouched (the existence check runs before any write), and delete on
such an id reports failure and removes nothing. -/
theorem claim_C4 (db : DB) (now : String) (nid : Nat)
    (title content : Option String) (tags : Option (List String))
    (h : ∀ n ∈ db.notes, n.id ≠ nid) :
    updateNote db now nid title content tags = Except.ok (false, db) ∧
    deleteNote db nid = (false, db) := by
  have hf : db.notes.find? (fun n => n.id = nid) = none := by
    rw [List.find?_eq_none]
    intro x hx
    simpa using h x hx
  constructor
  · unfold updateNote
    rw [hf]
    rfl
  · unfold deleteNote
    have h1 : db.notes.any (fun n => n.id = nid) = false := by
      rw [List.any_eq_false]
      intro x hx
      simpa using h x hx
    have h2 : db.notes.filter (fun n => ¬ n.id = nid) = db.notes := by
      rw [List.filter_eq_self]
      intro x hx
      simpa using h x hx
    rw [h1, h2]

/-- Witness for C4 at a concrete store and a concrete missing id. -/
theorem claim_C4_witness :
    updateNote exDB1 "t9" 7 (some "z") none (some ["q"]) = Except.ok (false, exDB1) ∧
    deleteNote exDB1 7 = (false, exDB1) :=
  claim_C4 exDB1 "t9" 7 (some "z") none (some ["q"]) (by decide)

/-- C8: an invalid sortBy together with an invalid order are silently
replaced by the defaults, so listAll with two invalid values returns exactly
the default created_at descending listing. -/
theorem claim_C8 (db : DB) (sortBy order : String)
    (hs : sortBy ∉ (["created_at", "updated_at", "title"] : List String))
    (ho : order ∉ (["ASC", "DESC"] : List String)) :
    getAllNotes db sortBy order = getAllNotes db "created_at" "DESC" := by
  unfold getAllNotes
  rw [if_neg hs, if_neg ho, if_pos (by decide), if_pos (by decide)]

/-- Witness for C8 at concrete invalid arguments. -/
theorem claim_C8_witness :
    getAllNotes exDB1 "bogus" "sideways" = getAllNotes exDB1 "created_at" "DESC" :=
  claim_C8 exDB1 "bogus" "sideways" (by decide) (by decide)

/-- C1 (code bug): the module never issues PRAGMA foreign_keys=ON, so the ON
DELETE CASCADE declared in the schema never fires.  On the store holding one
note (id 1) tagged a, delete(1) succeeds and getById(1) becomes not-found,
but the association row (1, 1) survives as an orphan and the statistics count
for tag a stays 1 instead of decrementing to 0. -/
theorem claim_C1_bug :
    addNote emptyDB "t0" "n" "" ["a"] = Except.ok (1, exDB1) ∧
    deleteNote exDB1 1 = (true, { exDB1 with notes := [] }) ∧
    getNote (deleteNote exDB1 1).2 1 = none ∧
    (deleteNote exDB1 1).2.noteTags = [(1, 1)] ∧
    tagNoteCount (deleteNote exDB1 1).2 "a" = some 1 :=
  ⟨rfl, rfl, rfl, rfl, rfl⟩

/-- C2 counterexample: with a repeated tag name in the input, create does not
return an id at all: the second association insert violates the note_tags
primary key and the call raises, so getById-of-create cannot return the
promised note for this input. -/
theorem claim_C2_counterexample :
    addNote emptyDB "t0" "t" "c" ["a", "a"] = Except.error () := rfl

/-- C3 counterexample: create with a duplicated tag name raises instead of
collapsing the duplicate to a single association, refuting the no-error
claim. -/
theorem claim_C3_counterexample :
    addNote emptyDB "2024-01-01T00:00:00" "shopping" "milk" ["x", "x"] =
      Except.error () := rfl

/-- C9 counterexample: tag names are not trimmed by the store layer.  Storing
a note with the padded tag name keeps the surrounding whitespace in the tags
row, and a second note with the trimmed variant of the name creates a second,
distinct Tag entity rather than resolving to the first. -/
theorem claim_C9_counterexample :
    addNote emptyDB "t0" "n" "" [" a "] = Except.ok (1, exDB9a) ∧
    exDB9a.tags.map Tag.name = [" a "] ∧
    addNote exDB9a "t1" "m" "" ["a"] = Except.ok (2, exDB9b) ∧
    exDB9b.tags.map Tag.name = [" a ", "a"] ∧
    totalTags exDB9b = 2 :=
  ⟨rfl, rfl, rfl, rfl, rfl⟩

/-- C9 amended: the store layer stores every supplied tag name verbatim — no
trimming of surrounding whitespace — so after resolve-or-create the stored
Tag entity for the name carries exactly the supplied string (trimming happens
only in the CLI layer before names reach the store). -/
theorem claim_C9_amended (db : DB) (name : String) :
    ∃ t, findTag (getOrCreateTag db name).2 name = some t ∧ t.name = name := by
  unfold getOrCreateTag
  cases h : findTag db name with
  | some t =>
      refine ⟨t, by simpa using h, ?_⟩
      have h2 := List.find?_some
        (show List.find? (fun t : Tag => t.name = name) db.tags = some t by
          simpa [findTag] using h)
      simpa using h2
  | none =>
      refine ⟨⟨db.nextTagId, name⟩, ?_, rfl⟩
      unfold findTag at h ⊢
      simp only [List.find?_append, h]
      simp

/-- In a notes table with duplicate-free ids, the lookup by the id of a
member row returns that row. -/
theorem note_find?_by_id (l : List Note) (hnd : (l.map Note.id).Nodup)
    (x : Note) (hx : x ∈ l) : l.find? (fun u => u.id = x.id) = some x := by
  induction l with
  | nil => cases hx
  | cons a l ih =>
      rw [List.map_cons, List.nodup_cons] at hnd
      rcases List.mem_cons.mp hx with rfl | hmem
      · exact List.find?_cons_of_pos _ (by simp)
      · have hne : ¬ a.id = x.id := by
          intro he
          exact hnd.1 (he ▸ List.mem_map_of_mem Note.id hmem)
        rw [List.find?_cons_of_neg _ (by simpa using hne)]
        exact ih hnd.2 hmem

/-- A filterMap whose function always succeeds is a map. -/
theorem filterMap_eq_map_of_some {α β : Type} (f : α → Option β) (g : α → β) :
    ∀ l : List α, (∀ x ∈ l, f x = some (g x)) → l.filterMap f = l.map g := by
  intro l
  induction l with
  | nil => intro _; rfl
  | cons a l ih =>
      intro h
      rw [List.filterMap_cons_some (h a (by simp)), List.map_cons,
        ih (fun x hx => h x (by simp [hx]))]

/-- On a store with duplicate-free note ids, search is the sorted filtered
notes table rendered through noteView (the per-row re-fetch never misses and
returns the row itself). -/
theorem searchNotes_eq_map (db : DB) (hnd : (db.notes.map Note.id).Nodup)
    (title : Option String) (tags : Option (List String))
    (sd ed kw : Option String) :
    searchNotes db title tags sd ed kw =
      ((db.notes.filter (noteMatches db title tags sd ed kw)).mergeSort
        createdDesc).map (noteView db) := by
  unfold searchNotes
  refine filterMap_eq_map_of_some _ _ _ ?_
  intro x hx
  have hxnotes : x ∈ db.notes :=
    List.mem_of_mem_filter
      ((List.mergeSort_perm _ createdDesc).mem_iff.mp hx)
  show getNote db x.id = some (noteView db x)
  unfold getNote
  rw [note_find?_by_id db.notes hnd x hxnotes, Option.map_some']

/-- The ORDER BY created_at DESC comparator is transitive. -/
theorem createdDesc_trans : ∀ a b c : Note, createdDesc a b = true →
    createdDesc b c = true → createdDesc a c = true := by
  intro a b c hab hbc
  rw [createdDesc, decide_eq_true_iff] at *
  exact le_trans hbc hab

/-- The ORDER BY created_at DESC comparator is total. -/
theorem createdDesc_total : ∀ a b : Note,
    (createdDesc a b || createdDesc b a) = true := by
  intro a b
  rw [Bool.or_eq_true, createdDesc, createdDesc, decide_eq_true_iff,
    decide_eq_true_iff]
  exact le_total b.createdAt a.createdAt

/-- The view keeps all five note fields, so it is injective on rows. -/
theorem noteView_inj (db : DB) (a b : Note)
    (h : noteView db a = noteView db b) : a = b := by
  unfold noteView at h
  rw [NoteView.mk.injEq] at h
  obtain ⟨h1, h2, h3, h4, h5, _⟩ := h
  cases a
  cases b
  simp_all

/-- The tag condition of the assembled query holds exactly when the note
carries one of the requested names. -/
theorem hasAnyTag_iff (db : DB) (names : List String) (nid : Nat) :
    hasAnyTag db names nid = true ↔ ∃ m ∈ names, CarriesTag db nid m := by
  unfold hasAnyTag CarriesTag
  rw [List.any_eq_true]
  constructor
  · rintro ⟨p, hp, hpp⟩
    rw [Bool.and_eq_true] at hpp
    obtain ⟨hp1, hp2⟩ := hpp
    rw [List.any_eq_true] at hp2
    obtain ⟨t, ht, htt⟩ := hp2
    rw [Bool.and_eq_true] at htt
    obtain ⟨ht1, ht2⟩ := htt
    have hp1a : p.1 = nid := by simpa using hp1
    have ht1a : t.id = p.2 := by simpa using ht1
    refine ⟨t.name, by simpa using ht2, t, ht, rfl, ?_⟩
    have hpe : p = (nid, t.id) := by
      rw [← hp1a, ht1a]
    exact hpe ▸ hp
  · rintro ⟨m, hm, t, ht, htm, hmem⟩
    refine ⟨(nid, t.id), hmem, ?_⟩
    rw [Bool.and_eq_true]
    refine ⟨by simp, ?_⟩
    rw [List.any_eq_true]
    refine ⟨t, ht, ?_⟩
    rw [Bool.and_eq_true]
    exact ⟨by simp, by simp [htm, hm]⟩

/-- An optional filter condition of the assembled WHERE clause holds exactly
when activity implies the condition. -/
theorem boolFilter_iff (b x : Bool) (P : Prop) (h : x = true ↔ P) :
    ((if b = true then x else true) = true) ↔ (b = true → P) := by
  by_cases hb : b = true
  · rw [if_pos hb]
    rw [h]
    simp [hb]
  · rw [if_neg hb]
    simp [hb]

/-- The assembled WHERE clause accepts a row exactly when the spec-side
conjunction of the supplied filters holds for it. -/
theorem noteMatches_iff (db : DB) (title : Option String)
    (tags : Option (List String)) (sd ed kw : Option String) (n : Note) :
    noteMatches db title tags sd ed kw n = true ↔
      MatchesSpec db title tags sd ed kw n := by
  unfold noteMatches MatchesSpec
  simp only [Bool.and_eq_true, and_assoc]
  refine Iff.and ?_ (Iff.and ?_ (Iff.and ?_ (Iff.and ?_ ?_)))
  · exact boolFilter_iff _ _ _ (hasAnyTag_iff db (tags.getD []) n.id)
  · exact boolFilter_iff _ _ _ Iff.rfl
  · exact boolFilter_iff _ _ _ (by rw [decide_eq_true_iff])
  · exact boolFilter_iff _ _ _ (by rw [decide_eq_true_iff])
  · exact boolFilter_iff _ _ _ (by rw [Bool.or_eq_true])

/-- C6: search returns exactly the notes satisfying the conjunction of the
supplied filters (tags filter: match-any over the requested names), each
matching note exactly once (duplicate-free result ids), always ordered by
created_at descending; with no filters it returns all notes (a permutation
of the whole table) in created_at descending order. -/
theorem claim_C6 (db : DB) (hwf : WF db) (title : Option String)
    (tags : Option (List String)) (sd ed kw : Option String) :
    (∀ n ∈ db.notes, (noteView db n ∈ searchNotes db title tags sd ed kw ↔
        MatchesSpec db title tags sd ed kw n)) ∧
    (∀ v ∈ searchNotes db title tags sd ed kw,
        ∃ n ∈ db.notes, v = noteView db n ∧ MatchesSpec db title tags sd ed kw n) ∧
    ((searchNotes db title tags sd ed kw).map NoteView.id).Nodup ∧
    (searchNotes db title tags sd ed kw).Pairwise
      (fun a b => b.createdAt ≤ a.createdAt) ∧
    ((searchNotes db none none none none none).map NoteView.id).Perm
      (db.notes.map Note.id) ∧
    (searchNotes db none none none none none).Pairwise
      (fun a b => b.createdAt ≤ a.createdAt) := by
  have hnd : (db.notes.map Note.id).Nodup := hwf.1
  have heq := searchNotes_eq_map db hnd title tags sd ed kw
  have hperm := List.mergeSort_perm
    (db.notes.filter (noteMatches db title tags sd ed kw)) createdDesc
  have hmemsort : ∀ x : Note,
      x ∈ (db.notes.filter (noteMatches db title tags sd ed kw)).mergeSort
        createdDesc ↔
      x ∈ db.notes ∧ noteMatches db title tags sd ed kw x = true := by
    intro x
    rw [hperm.mem_iff, List.mem_filter]
  have hsorted : ∀ (l : List Note), l.Pairwise (fun a b => createdDesc a b = true) →
      (l.map (noteView db)).Pairwise (fun a b => b.createdAt ≤ a.createdAt) := by
    intro l hl
    refine List.Pairwise.map (noteView db) ?_ hl
    intro a b hab
    rw [createdDesc, decide_eq_true_iff] at hab
    exact hab
  refine ⟨?_, ?_, ?_, ?_, ?_, ?_⟩
  · intro n hn
    rw [heq, ← noteMatches_iff]
    constructor
    · intro hv
      rcases List.mem_map.mp hv with ⟨a, ha, hav⟩
      have := noteView_inj db a n hav
      subst this
      exact ((hmemsort a).mp ha).2
    · intro hm
      exact List.mem_map.mpr ⟨n, (hmemsort n).mpr ⟨hn, hm⟩, rfl⟩
  · intro v hv
    rw [heq] at hv
    rcases List.mem_map.mp hv with ⟨a, ha, hav⟩
    have haf := (hmemsort a).mp ha
    exact ⟨a, haf.1, hav.symm, (noteMatches_iff db title tags sd ed kw a).mp haf.2⟩
  · rw [heq, List.map_map]
    have hmapeq : (NoteView.id ∘ noteView db) = Note.id := by
      funext x
      rfl
    rw [hmapeq]
    have hsub : (db.notes.filter
        (noteMatches db title tags sd ed kw)).map Note.id |>.Sublist
        (db.notes.map Note.id) :=
      (List.filter_sublist db.notes).map Note.id
    exact ((hperm.map Note.id).nodup_iff).mpr (hsub.nodup hnd)
  · rw [heq]
    exact hsorted _ (List.sorted_mergeSort createdDesc_trans createdDesc_total _)
  · have heq0 := searchNotes_eq_map db hnd none none none none none
    rw [show db.notes.filter (noteMatches db none none none none none) = db.notes
      from List.filter_eq_self.mpr (fun a ha => rfl)] at heq0
    rw [heq0, List.map_map]
    have hmapeq : (NoteView.id ∘ noteView db) = Note.id := by
      funext x
      rfl
    rw [hmapeq]
    exact (List.mergeSort_perm db.notes createdDesc).map Note.id
  · have heq0 := searchNotes_eq_map db hnd none none none none none
    rw [heq0]
    exact hsorted _ (List.sorted_mergeSort createdDesc_trans createdDesc_total _)

/-- Witness for C6 on a concrete two-note store with a title filter and a
match-any tag filter supplied together. -/
theorem claim_C6_witness :
    (∀ n ∈ exDB2.notes, (noteView exDB2 n ∈ searchNotes exDB2 (some "alp")
        (some ["a", "b"]) none none none ↔
        MatchesSpec exDB2 (some "alp") (some ["a", "b"]) none none none n)) ∧
    (∀ v ∈ searchNotes exDB2 (some "alp") (some ["a", "b"]) none none none,
        ∃ n ∈ exDB2.notes, v = noteView exDB2 n ∧
          MatchesSpec exDB2 (some "alp") (some ["a", "b"]) none none none n) ∧
    ((searchNotes exDB2 (some "alp") (some ["a", "b"]) none none none).map
      NoteView.id).Nodup ∧
    (searchNotes exDB2 (some "alp") (some ["a", "b"]) none none none).Pairwise
      (fun a b => b.createdAt ≤ a.createdAt) ∧
    ((searchNotes exDB2 none none none none none).map NoteView.id).Perm
      (exDB2.notes.map Note.id) ∧
    (searchNotes exDB2 none none none none none).Pairwise
      (fun a b => b.createdAt ≤ a.createdAt) :=
  claim_C6 exDB2 (by decide) (some "alp") (some ["a", "b"]) none none none

/-- C10: search treats the empty-string title, empty-string keyword and empty
tags list exactly like omitted filters (Python truthiness), so the call with
those arguments equals the call with no filters, which in turn is the full
notes table in the ORDER BY created_at DESC order (a permutation of all
notes, never dropping any). -/
theorem claim_C10 (db : DB) :
    searchNotes db (some "") (some []) none none (some "") =
      searchNotes db none none none none none ∧
    searchNotes db none none none none none =
      (db.notes.mergeSort createdDesc).filterMap (fun r => getNote db r.id) ∧
    ((searchNotes db none none none none none).map NoteView.id).Perm
      (db.notes.map Note.id) := by
  have h2 : searchNotes db none none none none none =
      (db.notes.mergeSort createdDesc).filterMap (fun r => getNote db r.id) := by
    unfold searchNotes
    rw [show db.notes.filter (noteMatches db none none none none none) = db.notes
      from List.filter_eq_self.mpr (fun a ha => rfl)]
  refine ⟨rfl, h2, ?_⟩
  rw [h2, filterMap_getNote_map_id db _
    (fun r hr => (List.mergeSort_perm db.notes createdDesc).mem_iff.mp hr)]
  exact (List.mergeSort_perm db.notes createdDesc).map Note.id

end NoteDb
